import Mathlib

/-!
Verification of the Hashflow RFQ pricing core and the generic-RFQ validators
(`src/dex/hashflow/hashflow.ts`, `src/dex/generic-rfq/validators.ts`).

Embedding conventions:
* `BigNumber` values are modelled as `ℚ`.  In bignumber.js, `plus`, `minus`
  and `multipliedBy` are exact; `dividedBy` rounds to 20 decimal places
  (modelled here as exact rational division) and `toFixed(0)` rounds with
  `ROUND_HALF_UP` (half away from zero), modelled by `bnToFixed0`.
* JavaScript strings are modelled as `List Char` so that every string
  operation used by the code (lowercasing, suffix test, `split`, lexicographic
  comparison) is an executable structural function.
* `undefined`/fallible results are `Option`; thrown exceptions are `Except`.
-/

namespace HashflowVerify

/-! ### JavaScript string primitives -/

/-- Lexicographic comparison of two character lists by code point: the
semantics of the JavaScript `<` operator applied to two strings. -/
def lexLtChars : List Char → List Char → Bool
  | [], [] => false
  | [], _ :: _ => true
  | _ :: _, [] => false
  | a :: as_, b :: bs =>
    if a.val < b.val then true
    else if b.val < a.val then false
    else lexLtChars as_ bs

/-- The character for a decimal digit `d < 10`. -/
def digitChar (d : ℕ) : Char := Char.ofNat (48 + d)

/-- Fuel-driven decimal printer (most significant digit first). -/
def natToDecimalCharsAux : ℕ → ℕ → List Char
  | 0, _ => []
  | fuel + 1, n =>
    if n < 10 then [digitChar n]
    else natToDecimalCharsAux fuel (n / 10) ++ [digitChar (n % 10)]

/-- Canonical decimal representation of a natural number, as produced by
`BigNumber.prototype.valueOf`/`toString` for nonnegative integers below
`10^21` (beyond that bignumber.js switches to exponential notation; all
values handled in this development are far below that bound). -/
def natToDecimalChars (n : ℕ) : List Char := natToDecimalCharsAux (n + 1) n

/-- ASCII lowercasing of a JS string (`String.prototype.toLowerCase`;
identifiers and hex addresses in this code are ASCII). -/
def toLowerChars (s : List Char) : List Char := s.map Char.toLower

/-- Fuel-driven worker for `jsSplit`.  `acc` holds the (reversed) characters
of the segment currently being scanned. -/
def jsSplitAux (sep : List Char) : ℕ → List Char → List Char → List (List Char)
  | 0, acc, s => [acc.reverse ++ s]
  | fuel + 1, acc, s =>
    match s with
    | [] => [acc.reverse]
    | c :: rest =>
      if sep.isPrefixOf s then acc.reverse :: jsSplitAux sep fuel [] (s.drop sep.length)
      else jsSplitAux sep fuel (c :: acc) rest

/-- JavaScript `String.prototype.split` with a nonempty string separator:
splits on non-overlapping occurrences of `sep`, scanning left to right.
The initial fuel `s.length + 1` is enough for every step to be taken. -/
def jsSplit (sep s : List Char) : List (List Char) := jsSplitAux sep (s.length + 1) [] s

/-- `arr.split(sep).pop()`: the last segment produced by `jsSplit`. -/
def splitThenPop (sep s : List Char) : List Char := (jsSplit sep s).getLastD []

/-! ### BigNumber rounding -/

/-- `BigNumber.prototype.toFixed(0)` under the default `ROUND_HALF_UP`
rounding mode (round half away from zero), followed by `BigInt(...)`. -/
def bnToFixed0 (q : ℚ) : ℤ := if q < 0 then -⌊-q + 1 / 2⌋ else ⌊q + 1 / 2⌋

/-! ### Price-level curve model (`hashflow.ts`) -/

/-- A price level, already parsed from its two decimal strings:
`level` is the cumulative base-asset size, `price` the marginal price. -/
structure PriceLevel where
  level : ℚ
  price : ℚ
  deriving DecidableEq

/-- Trade direction (`SwapSide` in the surrounding framework). -/
inductive SwapSide
  | SELL
  | BUY
  deriving DecidableEq

/-- A token as used by the pricing code: an (already lowercased) address and
a decimals count. -/
structure Token where
  address : List Char
  decimals : ℕ

/-- The `for (let i = 1; i < levels.length; i++)` loop of
`computeLevelsQuote` (hashflow.ts:288-310).  The state is the running
`quote.baseAmount` / `quote.quoteAmount` pair together with
`levels[i-1].level` (`prevLevel`); at every iteration the source keeps
`quote.baseAmount` equal to `levels[i-1].level`.  When `reqBase` is set the
`reqQuoteAmount` branch of the source is dead (both set is rejected before
the loop), which the `match` makes explicit. -/
def walkLevels (reqBase reqQuote : Option ℚ)
    (quoteBaseAmount quoteQuoteAmount prevLevel : ℚ) :
    List PriceLevel → Option ℚ
  | [] => none
  | nextLevel :: rest =>
    let nextLevelDepth := nextLevel.level - prevLevel
    let nextLevelQuote := quoteQuoteAmount + nextLevelDepth * nextLevel.price
    match reqBase, reqQuote with
    | some rb, _ =>
      if rb ≤ nextLevel.level then
        some (quoteQuoteAmount + (rb - quoteBaseAmount) * nextLevel.price)
      else walkLevels reqBase reqQuote nextLevel.level nextLevelQuote nextLevel.level rest
    | none, some rq =>
      if rq ≤ nextLevelQuote then
        some (quoteBaseAmount + (rq - quoteQuoteAmount) / nextLevel.price)
      else walkLevels reqBase reqQuote nextLevel.level nextLevelQuote nextLevel.level rest
    | none, none =>
      walkLevels reqBase reqQuote nextLevel.level nextLevelQuote nextLevel.level rest

/-- `computeLevelsQuote` (hashflow.ts:263-313).  A `BigNumber` argument is
always truthy in JavaScript (even zero), so `reqBaseAmount && reqQuoteAmount`
is exactly "both are set". -/
def computeLevelsQuote (priceLevels : List PriceLevel)
    (reqBaseAmount reqQuoteAmount : Option ℚ) : Option ℚ :=
  if reqBaseAmount.isSome && reqQuoteAmount.isSome then none
  else
    match priceLevels with
    | [] => none
    | l0 :: rest =>
      let quoteBaseAmount := l0.level
      let quoteQuoteAmount := l0.level * l0.price
      let belowBase : Bool :=
        match reqBaseAmount with
        | some rb => decide (rb < quoteBaseAmount)
        | none => false
      let belowQuote : Bool :=
        match reqQuoteAmount with
        | some rq => decide (rq < quoteQuoteAmount)
        | none => false
      if belowBase || belowQuote then none
      else walkLevels reqBaseAmount reqQuoteAmount quoteBaseAmount quoteQuoteAmount l0.level rest

/-- The cumulative `(baseAmount, quoteAmount)` state after walking a list of
tiers from an initial state: each tier `l` moves the state to
`(l.level, quote + (l.level - prevBase) * l.price)`. -/
def cumState (init : ℚ × ℚ) (tiers : List PriceLevel) : ℚ × ℚ :=
  tiers.foldl (fun s l => (l.level, s.2 + (l.level - s.1) * l.price)) init

/-- The deepest level's cumulative base size (`0` for an empty list). -/
def deepestLevel (levels : List PriceLevel) : ℚ :=
  (levels.map PriceLevel.level).getLastD 0

/-- The deepest level's cumulative quote size: the quote accumulated by the
walk over the whole list. -/
def deepestQuote (levels : List PriceLevel) : ℚ :=
  match levels with
  | [] => 0
  | l0 :: rest => (cumState (l0.level, l0.level * l0.price) rest).2

/-- The zero-level insertion at the top of `computePricesFromLevels`
(hashflow.ts:220-226).  In the source this is `levels.unshift(...)`, an
in-place mutation of the caller's array; here the new list is returned. -/
def insertZeroLevelIfNeeded (levels : List PriceLevel) : List PriceLevel :=
  match levels with
  | [] => []
  | firstLevel :: _ =>
    if 0 < firstLevel.level then { level := 0, price := firstLevel.price } :: levels
    else levels

/-- The curve evaluation selected by the trade direction
(`side === SwapSide.SELL ? computeLevelsQuote(levels, amount, undefined)
: computeLevelsQuote(levels, undefined, amount)`, hashflow.ts:233-236). -/
def curveQuote (levels : List PriceLevel) (side : SwapSide) (amount : ℚ) : Option ℚ :=
  match side with
  | SwapSide.SELL => computeLevelsQuote levels (some amount) none
  | SwapSide.BUY => computeLevelsQuote levels none (some amount)

/-- The `for (const [i, amount] of amounts.entries())` loop of
`computePricesFromLevels` (hashflow.ts:229-245), returning the outputs
together with the number of `computeLevelsQuote` evaluations performed.
On an `undefined` quote the loop `break`s: the remaining outputs keep their
prefilled `BN_0` value and the curve is not evaluated again. -/
def computeOutputsLoop (levels : List PriceLevel) (side : SwapSide) :
    List ℚ → List ℚ × ℕ
  | [] => ([], 0)
  | amount :: rest =>
    if amount = 0 then
      let r := computeOutputsLoop levels side rest
      (0 :: r.1, r.2)
    else
      match curveQuote levels side amount with
      | none => (0 :: rest.map fun _ => 0, 1)
      | some output =>
        let r := computeOutputsLoop levels side rest
        (output :: r.1, r.2 + 1)

/-- `getBigNumberPow(decimals)`. -/
def getBigNumberPow (decimals : ℕ) : ℚ := (10 : ℚ) ^ decimals

/-- `computePricesFromLevels` (hashflow.ts:213-253).  Returns the final
levels array (the source mutates its argument in place) paired with the
outputs converted to integer base units via
`BigInt(o.multipliedBy(10^decimals).toFixed(0))`. -/
def computePricesFromLevels (amounts : List ℚ) (levels : List PriceLevel)
    (srcToken destToken : Token) (side : SwapSide) : List PriceLevel × List ℤ :=
  let levels1 := insertZeroLevelIfNeeded levels
  let outputs := (computeOutputsLoop levels1 side amounts).1
  let decimals :=
    match side with
    | SwapSide.SELL => destToken.decimals
    | SwapSide.BUY => srcToken.decimals
  (levels1, outputs.map fun o => bnToFixed0 (o * getBigNumberPow decimals))

/-- The number of `computeLevelsQuote` evaluations that a
`computePricesFromLevels` call performs. -/
def computePricesEvalCount (amounts : List ℚ) (levels : List PriceLevel)
    (side : SwapSide) : ℕ :=
  (computeOutputsLoop (insertZeroLevelIfNeeded levels) side amounts).2

/-! ### Pool identifiers (`hashflow.ts:96-111` and `getPricesVolume:382`) -/

/-- `getPairName(src, dest)`: the lowercased `src ++ "_" ++ dest`. -/
def getPairName (srcAddress destAddress : List Char) : List Char :=
  toLowerChars (srcAddress ++ '_' :: destAddress)

/-- `getIdentifierPrefix(src, dest)` for a fixed `dexKey`. -/
def identifierPrefixChars (dexKey srcAddress destAddress : List Char) : List Char :=
  toLowerChars (dexKey ++ '_' :: getPairName srcAddress destAddress)

/-- `getPoolIdentifier(src, dest, mm)`. -/
def getPoolIdentifier (dexKey srcAddress destAddress mm : List Char) : List Char :=
  toLowerChars (identifierPrefixChars dexKey srcAddress destAddress ++ '_' :: mm)

/-- The maker-id recovery of `getPricesVolume` (hashflow.ts:382):
`p.split(prefix + "_").pop()`. -/
def recoverMakerId (dexKey srcAddress destAddress poolId : List Char) : List Char :=
  splitThenPop (identifierPrefixChars dexKey srcAddress destAddress ++ ['_']) poolId

/-! ### Restriction cache parsing (`hashflow.ts:162-211`) -/

/-- JavaScript numeric coercion `+s` restricted to the value shapes this
cache stores: a decimal-digit string yields its value, the empty string
yields `0`, and anything else (this model folds the remaining JS numeric
forms into this case, none of which the cache produces) yields `NaN`,
modelled as `none`. -/
def jsUnaryPlus (s : List Char) : Option ℤ :=
  if s = [] then some 0
  else if s.all Char.isDigit then
    some ((s.foldl (fun acc c => acc * 10 + (c.toNat - 48)) (0 : ℕ) : ℕ) : ℤ)
  else none

/-- JavaScript `a < b` with a possibly-`NaN` left operand: any comparison
with `NaN` is false. -/
def jsNumLt (a : Option ℤ) (b : ℤ) : Bool :=
  match a with
  | none => false
  | some v => decide (v < b)

/-- `parseCacheRestrictionAndExpiryIfNeeded` (hashflow.ts:162-211) for a
given current time `now` (ms) and restriction TTL `ttlS` (seconds):
each `[mm, createdAt]` entry with `+createdAt < now - ttlS * 1000` is pushed
onto `toDelete` (scheduled for a fire-and-forget `hdel`), every other entry
is added to the returned restricted set.  Returns
`(restrictedMMs, toDelete)` in entry order. -/
def parseCacheRestrictionAndExpiryIfNeeded (now ttlS : ℤ)
    (cachedValues : List (String × List Char)) : List String × List String :=
  match cachedValues with
  | [] => ([], [])
  | (mm, createdAt) :: rest =>
    let r := parseCacheRestrictionAndExpiryIfNeeded now ttlS rest
    if jsNumLt (jsUnaryPlus createdAt) (now - ttlS * 1000) then (r.1, mm :: r.2)
    else (mm :: r.1, r.2)

/-! ### Slippage check of `preProcessTransaction` (`hashflow.ts:574-605`) -/

/-- The direction-dependent slippage check: `true` means a
`SlippageCheckError` is thrown.  All amounts are `BigInt`s; the products are
computed as `BigInt(new BigNumber(x).times(slippageFactor).toFixed(0))`. -/
def slippageCheckFails (side : SwapSide)
    (srcAmount destAmount baseTokenAmount quoteTokenAmount : ℤ)
    (slippageFactor : ℚ) : Bool :=
  match side with
  | SwapSide.SELL =>
    decide (quoteTokenAmount < bnToFixed0 ((destAmount : ℚ) * slippageFactor))
  | SwapSide.BUY =>
    if quoteTokenAmount < destAmount then true
    else decide (baseTokenAmount > bnToFixed0 (slippageFactor * (srcAmount : ℚ)))

/-! ### The catch handler of `preProcessTransaction` (`hashflow.ts:619-633`) -/

/-- The maker-reported user-restriction signal tested with
`e.message.endsWith(...)`. -/
def userRestrictedSignal : List Char :=
  ("User is restricted from using Hashflow").data

/-- The try/catch of `preProcessTransaction` after the blacklist check
(hashflow.ts:487-633).  `tryBody` is the outcome of the try block (the
firm-quote request, the response validation chain and the slippage check
each throw an error carrying their message).  The catch handler blacklists
the trade origin when the message ends with `userRestrictedSignal`,
otherwise restricts the market maker, and rethrows either way.  The result
is the propagated outcome together with
`(blacklisted user, restricted maker)`. -/
def preProcessTryCatch (α : Type) (txOrigin mm : String)
    (tryBody : Except (List Char) α) :
    Except (List Char) α × (Option String × Option String) :=
  match tryBody with
  | Except.ok v => (Except.ok v, (none, none))
  | Except.error e =>
    if List.isSuffixOf userRestrictedSignal e then (Except.error e, (some txOrigin, none))
    else (Except.error e, (none, some mm))

/-! ### `bidsLowerThanAsks` (`validators.ts:68-110`) -/

/-- The seed of the `minAsk` reduce: `new BigNumber('123456789012345678901234567890')`. -/
def minAskSeed : ℕ := 123456789012345678901234567890

/-- The `bidsLowerThanAsks` joi rule (validators.ts:75-108), for price
entries whose first component (the price) is a nonnegative-integer decimal
string, modelled by its value.  `true` means the pair entry passes
validation.  `maxBid`/`minAsk` are computed with the numeric
`gte`/`lte` BigNumber methods, but the final `maxBid < minAsk` applies the
JavaScript `<` operator to two BigNumber *objects*: each is coerced by
`valueOf()` to its decimal string and the two strings are compared
lexicographically (`lexLtChars`). -/
def bidsLowerThanAsks (bids asks : Option (List (ℕ × ℕ))) : Bool :=
  match bids, asks with
  | none, _ => true
  | _, none => true
  | some bs, some asks1 =>
    if bs = [] ∨ asks1 = [] then true
    else
      let maxBid := (bs.map Prod.fst).foldl
        (fun previousValue currentValue =>
          if previousValue ≤ currentValue then currentValue else previousValue) 0
      let minAsk := (asks1.map Prod.fst).foldl
        (fun previousValue currentValue =>
          if currentValue ≤ previousValue then currentValue else previousValue) minAskSeed
      lexLtChars (natToDecimalChars maxBid) (natToDecimalChars minAsk)

/-! ## Helper lemmas on the string primitives -/

theorem charToLower_idem (c : Char) : Char.toLower (Char.toLower c) = Char.toLower c := by
  unfold Char.toLower
  by_cases h : c.toNat ≥ 65 ∧ c.toNat ≤ 90
  · have hv : (c.toNat + 32).isValidChar := Or.inl (by omega)
    have ht : (Char.ofNat (c.toNat + 32)).toNat = c.toNat + 32 := by
      unfold Char.ofNat
      rw [dif_pos hv]
      rfl
    rw [if_pos h, ht, if_neg (by omega)]
  · rw [if_neg h, if_neg h]

theorem toLowerChars_append (a b : List Char) :
    toLowerChars (a ++ b) = toLowerChars a ++ toLowerChars b := by
  simp [toLowerChars]

theorem toLowerChars_idem (s : List Char) :
    toLowerChars (toLowerChars s) = toLowerChars s := by
  induction s with
  | nil => rfl
  | cons c cs ih =>
    simp only [toLowerChars, List.map_cons] at ih ⊢
    rw [charToLower_idem, ih]

theorem identifierPrefixChars_lower (dexKey srcAddress destAddress : List Char) :
    toLowerChars (identifierPrefixChars dexKey srcAddress destAddress) =
      identifierPrefixChars dexKey srcAddress destAddress := by
  unfold identifierPrefixChars
  exact toLowerChars_idem _

theorem jsSplitAux_of_not_infix :
    ∀ (x sep acc : List Char) (fuel : ℕ),
      x.length < fuel → ¬ sep <:+: x →
      jsSplitAux sep fuel acc x = [acc.reverse ++ x] := by
  intro x
  induction x with
  | nil =>
    intro sep acc fuel hf _
    match fuel with
    | 0 => omega
    | f + 1 => simp [jsSplitAux]
  | cons c rest ih =>
    intro sep acc fuel hf hinf
    match fuel with
    | 0 => simp at hf
    | f + 1 =>
      simp only [jsSplitAux]
      rw [if_neg ?hpre]
      case hpre =>
        intro hp
        exact hinf (List.isPrefixOf_iff_prefix.mp hp).isInfix
      rw [ih sep (c :: acc) f (by simp at hf ⊢; omega)
        (fun hsub => hinf (List.infix_cons hsub))]
      simp

theorem jsSplitAux_cons_step (sep acc s : List Char) (fuel : ℕ) (c : Char)
    (rest : List Char) (hs : s = c :: rest) (hp : sep.isPrefixOf s = true) :
    jsSplitAux sep (fuel + 1) acc s =
      acc.reverse :: jsSplitAux sep fuel [] (s.drop sep.length) := by
  subst hs
  simp only [jsSplitAux]
  rw [if_pos hp]

theorem jsSplit_sep_append (sep x : List Char) (hsep : sep ≠ [])
    (hinf : ¬ sep <:+: x) : jsSplit sep (sep ++ x) = [[], x] := by
  obtain ⟨c, sep1, rfl⟩ := List.exists_cons_of_ne_nil hsep
  have hp : (c :: sep1).isPrefixOf (c :: (sep1 ++ x)) = true := by
    rw [← List.cons_append]
    exact List.isPrefixOf_iff_prefix.mpr (List.prefix_append _ x)
  have hdrop : (c :: (sep1 ++ x)).drop (c :: sep1).length = x := by
    rw [← List.cons_append]
    exact List.drop_left _ x
  show jsSplitAux (c :: sep1) ((c :: (sep1 ++ x)).length + 1) [] (c :: (sep1 ++ x)) = [[], x]
  rw [jsSplitAux_cons_step _ _ _ _ c (sep1 ++ x) rfl hp, hdrop,
    jsSplitAux_of_not_infix x (c :: sep1) [] _
      (by simp only [List.length_cons, List.length_append]; omega) hinf]
  simp

/-! ## Claim C8: pool-identifier round-trip -/

/-- Claim C8 counterexample: `getPoolIdentifier` lowercases the maker id,
but `getPricesVolume` compares the recovered id case-sensitively against the
cached quote-set keys.  For the maker key `"MM1"` the produced pool
identifier decomposes to `"mm1"`, which is not the contributing key and does
not match any key of the cached set `{"MM1"}`. -/
theorem C8_roundtrip_counterexample :
    recoverMakerId ("Hashflow").data ("0xa").data ("0xb").data
        (getPoolIdentifier ("Hashflow").data ("0xa").data ("0xb").data ("MM1").data) =
      ("mm1").data ∧
    recoverMakerId ("Hashflow").data ("0xa").data ("0xb").data
        (getPoolIdentifier ("Hashflow").data ("0xa").data ("0xb").data ("MM1").data) ≠
      ("MM1").data ∧
    ¬ ("mm1").data ∈ [("MM1").data] := by decide

/-- Claim C8 (amended): for a maker id that is already lowercase and does
not contain the pair-exchange separator, stripping the prefix inside
`getPricesVolume` recovers exactly the contributing maker id. -/
theorem C8_roundtrip_lowercase (dexKey srcAddress destAddress mm : List Char)
    (hlow : toLowerChars mm = mm)
    (hsep : ¬ (identifierPrefixChars dexKey srcAddress destAddress ++ ['_']) <:+: mm) :
    recoverMakerId dexKey srcAddress destAddress
      (getPoolIdentifier dexKey srcAddress destAddress mm) = mm := by
  unfold recoverMakerId splitThenPop getPoolIdentifier
  have hid : toLowerChars (identifierPrefixChars dexKey srcAddress destAddress ++ '_' :: mm) =
      (identifierPrefixChars dexKey srcAddress destAddress ++ ['_']) ++ mm := by
    have hsplit : ('_' :: mm) = ['_'] ++ mm := rfl
    rw [hsplit, ← List.append_assoc, toLowerChars_append, toLowerChars_append,
      identifierPrefixChars_lower, hlow]
    have hu : toLowerChars ['_'] = ['_'] := by decide
    rw [hu]
  rw [hid, jsSplit_sep_append _ _ (by simp) hsep]
  rfl

/-- Witness for C8 at a concrete lowercase maker id. -/
theorem C8_roundtrip_lowercase_witness :
    toLowerChars ("mm1").data = ("mm1").data ∧
    ¬ (identifierPrefixChars ("Hashflow").data ("0xa").data ("0xb").data ++ ['_']) <:+:
      ("mm1").data ∧
    recoverMakerId ("Hashflow").data ("0xa").data ("0xb").data
      (getPoolIdentifier ("Hashflow").data ("0xa").data ("0xb").data ("mm1").data) =
      ("mm1").data :=
  ⟨by decide, by decide,
    C8_roundtrip_lowercase ("Hashflow").data ("0xa").data ("0xb").data ("mm1").data
      (by decide) (by decide)⟩

/-! ## Claim C2: crossed-book validation -/

/-- Claim C2 evaluated on the code: the final `maxBid < minAsk` comparison
of `bidsLowerThanAsks` is applied to two BigNumber objects, which JavaScript
coerces to their decimal strings and compares lexicographically.  The
crossed book `bids=[["10","1"]], asks=[["9","1"]]` therefore PASSES
validation (lexicographically "10" < "9"), contradicting the claim's
required rejection; the uncrossed book passes as the claim states. -/
theorem C2_crossedBook_evaluation :
    bidsLowerThanAsks (some [(10, 1)]) (some [(9, 1)]) = true ∧
    bidsLowerThanAsks (some [(8, 1)]) (some [(9, 1)]) = true := by decide

/-! ## Claim C5: slippage check -/

/-- Claim C5 counterexample: the code compares against the HALF-UP-rounded
product `BigInt(dest.times(factor).toFixed(0))`, not the exact product.
With `destAmount = 1000`, `slippageFactor = 0.9994` and
`quoteTokenAmount = 999` the exact comparison `999 < 999.4` holds (the claim
demands a SlippageCheckError), but the code compares `999 < 999` and does
not raise. -/
theorem C5_slippage_counterexample :
    ((999 : ℚ) < (1000 : ℚ) * (9994 / 10000)) ∧
    slippageCheckFails SwapSide.SELL 0 1000 0 999 (9994 / 10000) = false := by
  constructor
  · norm_num
  · norm_num [slippageCheckFails, bnToFixed0]

/-- Claim C5 (amended): the SELL check raises iff the returned quote-token
amount is below the half-up-rounded `destAmount * slippageFactor`; the BUY
check raises iff the quote-token amount is below `destAmount` or the
base-token amount exceeds the half-up-rounded `srcAmount * slippageFactor`.
The claim's concrete examples (`destAmount=100`, factor `0.99`,
quote `98` raises / `99` passes) hold unchanged. -/
theorem C5_slippage_characterization :
    ∀ (srcAmount destAmount baseTokenAmount quoteTokenAmount : ℤ) (slippageFactor : ℚ),
      (slippageCheckFails SwapSide.SELL srcAmount destAmount baseTokenAmount
          quoteTokenAmount slippageFactor = true ↔
        quoteTokenAmount < bnToFixed0 ((destAmount : ℚ) * slippageFactor)) ∧
      (slippageCheckFails SwapSide.BUY srcAmount destAmount baseTokenAmount
          quoteTokenAmount slippageFactor = true ↔
        (quoteTokenAmount < destAmount ∨
          (destAmount ≤ quoteTokenAmount ∧
            bnToFixed0 (slippageFactor * (srcAmount : ℚ)) < baseTokenAmount))) ∧
      slippageCheckFails SwapSide.SELL 0 100 0 98 (99 / 100) = true ∧
      slippageCheckFails SwapSide.SELL 0 100 0 99 (99 / 100) = false := by
  intro src dest base quote f
  refine ⟨?_, ?_, ?_, ?_⟩
  · simp [slippageCheckFails]
  · by_cases h : quote < dest
    · simp [slippageCheckFails, h]
    · simp [slippageCheckFails, h, not_lt.mp h, gt_iff_lt]
  · norm_num [slippageCheckFails, bnToFixed0]
  · norm_num [slippageCheckFails, bnToFixed0]

/-! ## Claim C6: failure escalation in preProcessTransaction -/

/-- Claim C6: any failure of the try block after the blacklist check is
rethrown to the caller; the maker is restricted unless the failure message
ends with the user-restriction signal, in which case the trade origin is
blacklisted and the maker is not restricted. -/
theorem C6_failure_escalation (α : Type) (txOrigin mm : String) (msg : List Char) :
    (preProcessTryCatch α txOrigin mm (Except.error msg)).1 = Except.error msg ∧
    (List.isSuffixOf userRestrictedSignal msg = true →
      (preProcessTryCatch α txOrigin mm (Except.error msg)).2 = (some txOrigin, none)) ∧
    (List.isSuffixOf userRestrictedSignal msg = false →
      (preProcessTryCatch α txOrigin mm (Except.error msg)).2 = (none, some mm)) := by
  refine ⟨?_, ?_, ?_⟩
  · simp only [preProcessTryCatch]
    split <;> rfl
  · intro h
    simp [preProcessTryCatch, h]
  · intro h
    simp [preProcessTryCatch, h]

/-- Witness for C6 on a restricted-user message and on a timeout message. -/
theorem C6_failure_escalation_witness :
    (List.isSuffixOf userRestrictedSignal
        ("Error: User is restricted from using Hashflow").data = true ∧
      (preProcessTryCatch ℕ "0xuser" "mm2"
          (Except.error ("Error: User is restricted from using Hashflow").data)).2 =
        (some "0xuser", none)) ∧
    (List.isSuffixOf userRestrictedSignal ("Hashflow: requestQuote timeout").data = false ∧
      (preProcessTryCatch ℕ "0xuser" "mm2"
          (Except.error ("Hashflow: requestQuote timeout").data)).2 = (none, some "mm2")) :=
  ⟨⟨by decide,
      (C6_failure_escalation ℕ "0xuser" "mm2"
        ("Error: User is restricted from using Hashflow").data).2.1 (by decide)⟩,
    ⟨by decide,
      (C6_failure_escalation ℕ "0xuser" "mm2"
        ("Hashflow: requestQuote timeout").data).2.2 (by decide)⟩⟩

/-! ## Claim C9: synthetic zero level and observational purity -/

theorem insertZeroLevelIfNeeded_cons_pos (l0 : PriceLevel) (rest : List PriceLevel)
    (h : 0 < l0.level) :
    insertZeroLevelIfNeeded (l0 :: rest) = { level := 0, price := l0.price } :: l0 :: rest := by
  simp [insertZeroLevelIfNeeded, h]

theorem insertZeroLevelIfNeeded_cons_nonpos (l0 : PriceLevel) (rest : List PriceLevel)
    (h : ¬ 0 < l0.level) : insertZeroLevelIfNeeded (l0 :: rest) = l0 :: rest := by
  simp [insertZeroLevelIfNeeded, h]

theorem insertZeroLevelIfNeeded_idem (levels : List PriceLevel) :
    insertZeroLevelIfNeeded (insertZeroLevelIfNeeded levels) = insertZeroLevelIfNeeded levels := by
  cases levels with
  | nil => rfl
  | cons l0 rest =>
    by_cases h : 0 < l0.level
    · rw [insertZeroLevelIfNeeded_cons_pos l0 rest h,
        insertZeroLevelIfNeeded_cons_nonpos _ _ (by simp)]
    · rw [insertZeroLevelIfNeeded_cons_nonpos l0 rest h,
        insertZeroLevelIfNeeded_cons_nonpos l0 rest h]

/-- Claim C9: when the first real level has nonzero (hence, sizes being
nonnegative, strictly positive) cumulative size, `computePricesFromLevels`
prepends a synthetic zero-size level carrying the first tier's price to the
caller's array; and the computation is observationally pure in the claim's
sense: repeating the call on the (mutated) levels array returns the
identical levels and outputs. -/
theorem C9_zero_level_insertion (amounts : List ℚ) (levels : List PriceLevel)
    (srcToken destToken : Token) (side : SwapSide) :
    (∀ firstLevel rest, levels = firstLevel :: rest →
      0 ≤ firstLevel.level → firstLevel.level ≠ 0 →
      (computePricesFromLevels amounts levels srcToken destToken side).1 =
        { level := 0, price := firstLevel.price } :: levels) ∧
    computePricesFromLevels amounts
        (computePricesFromLevels amounts levels srcToken destToken side).1
        srcToken destToken side =
      computePricesFromLevels amounts levels srcToken destToken side := by
  constructor
  · intro l0 rest hlev hnn hne
    subst hlev
    show insertZeroLevelIfNeeded (l0 :: rest) = _
    rw [insertZeroLevelIfNeeded_cons_pos l0 rest (lt_of_le_of_ne hnn (Ne.symm hne))]
  · show computePricesFromLevels amounts (insertZeroLevelIfNeeded levels) srcToken destToken side = _
    simp only [computePricesFromLevels, insertZeroLevelIfNeeded_idem]

/-- Witness for C9 at the concrete levels list `[(10, 2)]`. -/
theorem C9_zero_level_insertion_witness :
    (0 : ℚ) ≤ (10 : ℚ) ∧ (10 : ℚ) ≠ 0 ∧
    (computePricesFromLevels [1] [⟨10, 2⟩] ⟨[], 0⟩ ⟨[], 0⟩ SwapSide.SELL).1 =
      [⟨0, 2⟩, ⟨10, 2⟩] :=
  ⟨by norm_num, by norm_num,
    (C9_zero_level_insertion [1] [⟨10, 2⟩] ⟨[], 0⟩ ⟨[], 0⟩ SwapSide.SELL).1
      ⟨10, 2⟩ [] rfl (by norm_num) (by norm_num)⟩

/-! ## Claims C7 and C10: restriction-cache parsing -/

theorem parseCache_mem_keys (now ttlS : ℤ) (cached : List (String × List Char)) (x : String) :
    (x ∈ (parseCacheRestrictionAndExpiryIfNeeded now ttlS cached).1 →
      x ∈ cached.map Prod.fst) ∧
    (x ∈ (parseCacheRestrictionAndExpiryIfNeeded now ttlS cached).2 →
      x ∈ cached.map Prod.fst) := by
  induction cached with
  | nil => simp [parseCacheRestrictionAndExpiryIfNeeded]
  | cons e rest ih =>
    obtain ⟨mm, s⟩ := e
    simp only [parseCacheRestrictionAndExpiryIfNeeded, List.map_cons]
    split
    · exact ⟨fun hx => List.mem_cons_of_mem _ (ih.1 hx),
        fun hx => by
          rcases List.mem_cons.mp hx with h | h
          · exact h ▸ List.mem_cons_self _ _
          · exact List.mem_cons_of_mem _ (ih.2 h)⟩
    · exact ⟨fun hx => by
          rcases List.mem_cons.mp hx with h | h
          · exact h ▸ List.mem_cons_self _ _
          · exact List.mem_cons_of_mem _ (ih.1 h),
        fun hx => List.mem_cons_of_mem _ (ih.2 hx)⟩

theorem parseCache_entry (now ttlS : ℤ) (cached : List (String × List Char))
    (mm : String) (s : List Char)
    (hnd : (cached.map Prod.fst).Nodup) (hmem : (mm, s) ∈ cached) :
    (jsNumLt (jsUnaryPlus s) (now - ttlS * 1000) = true →
      mm ∈ (parseCacheRestrictionAndExpiryIfNeeded now ttlS cached).2 ∧
      mm ∉ (parseCacheRestrictionAndExpiryIfNeeded now ttlS cached).1) ∧
    (jsNumLt (jsUnaryPlus s) (now - ttlS * 1000) = false →
      mm ∈ (parseCacheRestrictionAndExpiryIfNeeded now ttlS cached).1 ∧
      mm ∉ (parseCacheRestrictionAndExpiryIfNeeded now ttlS cached).2) := by
  induction cached with
  | nil => cases hmem
  | cons e rest ih =>
    obtain ⟨mm1, s1⟩ := e
    simp only [List.map_cons, List.nodup_cons] at hnd
    rcases List.mem_cons.mp hmem with hhead | htail
    · have hmm : mm = mm1 := congrArg Prod.fst hhead
      have hs : s = s1 := congrArg Prod.snd hhead
      subst hmm
      subst hs
      simp only [parseCacheRestrictionAndExpiryIfNeeded]
      constructor
      · intro hlt
        rw [if_pos hlt]
        dsimp only
        refine ⟨List.mem_cons_self _ _, fun hx => ?_⟩
        exact hnd.1 ((parseCache_mem_keys now ttlS rest mm).1 hx)
      · intro hge
        rw [if_neg (by simp [hge])]
        dsimp only
        refine ⟨List.mem_cons_self _ _, fun hx => ?_⟩
        exact hnd.1 ((parseCache_mem_keys now ttlS rest mm).2 hx)
    · have hne : mm1 ≠ mm := by
        intro hcontr
        exact hnd.1 (hcontr ▸ List.mem_map_of_mem Prod.fst htail)
      have ihr := ih hnd.2 htail
      simp only [parseCacheRestrictionAndExpiryIfNeeded]
      by_cases hc : jsNumLt (jsUnaryPlus s1) (now - ttlS * 1000) = true
      · rw [if_pos hc]
        dsimp only
        constructor
        · intro hlt
          obtain ⟨hin, hout⟩ := ihr.1 hlt
          exact ⟨List.mem_cons_of_mem _ hin, hout⟩
        · intro hge
          obtain ⟨hin, hout⟩ := ihr.2 hge
          exact ⟨hin, fun hx => (List.mem_cons.mp hx).elim (fun h => hne h.symm) hout⟩
      · rw [if_neg hc]
        dsimp only
        constructor
        · intro hlt
          obtain ⟨hin, hout⟩ := ihr.1 hlt
          exact ⟨hin, fun hx => (List.mem_cons.mp hx).elim (fun h => hne h.symm) hout⟩
        · intro hge
          obtain ⟨hin, hout⟩ := ihr.2 hge
          exact ⟨List.mem_cons_of_mem _ hin, hout⟩

/-- Claim C7: an entry whose parsed creation timestamp is older than
`now - window` is scheduled for deletion and excluded from the returned
restricted set; an entry within the window is included and not scheduled
for deletion. -/
theorem C7_restriction_expiry (now ttlS : ℤ) (cached : List (String × List Char))
    (mm : String) (s : List Char) (t : ℤ)
    (hnd : (cached.map Prod.fst).Nodup) (hmem : (mm, s) ∈ cached)
    (hparse : jsUnaryPlus s = some t) :
    (t < now - ttlS * 1000 →
      mm ∈ (parseCacheRestrictionAndExpiryIfNeeded now ttlS cached).2 ∧
      mm ∉ (parseCacheRestrictionAndExpiryIfNeeded now ttlS cached).1) ∧
    (now - ttlS * 1000 ≤ t →
      mm ∈ (parseCacheRestrictionAndExpiryIfNeeded now ttlS cached).1 ∧
      mm ∉ (parseCacheRestrictionAndExpiryIfNeeded now ttlS cached).2) := by
  have h := parseCache_entry now ttlS cached mm s hnd hmem
  constructor
  · intro hlt
    exact h.1 (by simp [jsNumLt, hparse, hlt])
  · intro hge
    refine h.2 (by simp [jsNumLt, hparse]; omega)

/-- Witness for C7: with `now = 1000000` and a 600-second window
(threshold `400000`), the entry created at `now - (window + 1) = 399999` is
scheduled for deletion and excluded, while the entry created at
`now - (window - 1) = 400001` is included and kept. -/
theorem C7_restriction_expiry_witness :
    (("makerA" : String) ∈
        (parseCacheRestrictionAndExpiryIfNeeded 1000000 600
          [("makerA", ("399999").data), ("makerB", ("400001").data)]).2 ∧
      ("makerA" : String) ∉
        (parseCacheRestrictionAndExpiryIfNeeded 1000000 600
          [("makerA", ("399999").data), ("makerB", ("400001").data)]).1) ∧
    (("makerB" : String) ∈
        (parseCacheRestrictionAndExpiryIfNeeded 1000000 600
          [("makerA", ("399999").data), ("makerB", ("400001").data)]).1 ∧
      ("makerB" : String) ∉
        (parseCacheRestrictionAndExpiryIfNeeded 1000000 600
          [("makerA", ("399999").data), ("makerB", ("400001").data)]).2) :=
  ⟨(C7_restriction_expiry 1000000 600
        [("makerA", ("399999").data), ("makerB", ("400001").data)]
        "makerA" ("399999").data 399999 (by decide) (by decide) (by decide)).1
      (by decide),
    (C7_restriction_expiry 1000000 600
        [("makerA", ("399999").data), ("makerB", ("400001").data)]
        "makerB" ("400001").data 400001 (by decide) (by decide) (by decide)).2
      (by decide)⟩

/-- Claim C10: an entry whose stored value does not coerce to a number
(`+createdAt` is `NaN`) always lands in the restricted set and is never
scheduled for deletion, because `NaN < threshold` is false. -/
theorem C10_nan_timestamp_restricted (now ttlS : ℤ)
    (cached : List (String × List Char)) (mm : String) (s : List Char)
    (hnd : (cached.map Prod.fst).Nodup) (hmem : (mm, s) ∈ cached)
    (hnan : jsUnaryPlus s = none) :
    mm ∈ (parseCacheRestrictionAndExpiryIfNeeded now ttlS cached).1 ∧
    mm ∉ (parseCacheRestrictionAndExpiryIfNeeded now ttlS cached).2 :=
  (parseCache_entry now ttlS cached mm s hnd hmem).2 (by simp [jsNumLt, hnan])

/-- Witness for C10 on an arbitrarily old entry with a non-numeric value. -/
theorem C10_nan_timestamp_restricted_witness :
    jsUnaryPlus ("not-a-number").data = none ∧
    ("makerC" : String) ∈
      (parseCacheRestrictionAndExpiryIfNeeded 99999999999 600
        [("makerC", ("not-a-number").data)]).1 ∧
    ("makerC" : String) ∉
      (parseCacheRestrictionAndExpiryIfNeeded 99999999999 600
        [("makerC", ("not-a-number").data)]).2 :=
  ⟨by decide,
    (C10_nan_timestamp_restricted 99999999999 600 [("makerC", ("not-a-number").data)]
        "makerC" ("not-a-number").data (by decide) (by decide) (by decide)).1,
    (C10_nan_timestamp_restricted 99999999999 600 [("makerC", ("not-a-number").data)]
        "makerC" ("not-a-number").data (by decide) (by decide) (by decide)).2⟩

/-! ## Lemmas on the curve walk -/

theorem cumState_cons (a b : ℚ) (l : PriceLevel) (tiers : List PriceLevel) :
    cumState (a, b) (l :: tiers) = cumState (l.level, b + (l.level - a) * l.price) tiers := rfl

theorem chain_le_getLastD (xs : List ℚ) (d : ℚ) (h : List.Chain' (· ≤ ·) xs) :
    ∀ y ∈ xs, y ≤ xs.getLastD d := by
  induction xs generalizing d with
  | nil => intro y hy; cases hy
  | cons x xs ih =>
    intro y hy
    rw [List.getLastD_cons]
    rcases List.mem_cons.mp hy with rfl | hmem
    · cases xs with
      | nil => simp
      | cons z zs =>
        have hxz : y ≤ z := (List.chain'_cons.mp h).1
        exact hxz.trans (ih y (List.chain'_cons.mp h).2 z (List.mem_cons_self _ _))
    · exact ih x h.tail y hmem

theorem walkLevels_base_formula :
    ∀ (pre : List PriceLevel) (tier : PriceLevel) (post : List PriceLevel) (rb qq prev : ℚ),
      (∀ l ∈ pre, l.level < rb) → rb ≤ tier.level →
      walkLevels (some rb) none prev qq prev (pre ++ tier :: post) =
        some ((cumState (prev, qq) pre).2 + (rb - (cumState (prev, qq) pre).1) * tier.price) := by
  intro pre
  induction pre with
  | nil =>
    intro tier post rb qq prev _ htier
    simp only [List.nil_append, walkLevels]
    rw [if_pos htier]
    rfl
  | cons l pre1 ih =>
    intro tier post rb qq prev hpre htier
    have hl : l.level < rb := hpre l (List.mem_cons_self _ _)
    simp only [List.cons_append, walkLevels]
    rw [if_neg (not_le.mpr hl), cumState_cons prev qq l pre1]
    exact ih tier post rb _ _ (fun x hx => hpre x (List.mem_cons_of_mem _ hx)) htier

theorem walkLevels_base_overflow :
    ∀ (ls : List PriceLevel) (rb qb qq prev : ℚ),
      (∀ l ∈ ls, l.level < rb) →
      walkLevels (some rb) none qb qq prev ls = none := by
  intro ls
  induction ls with
  | nil => intros; rfl
  | cons next rest ih =>
    intro rb qb qq prev h
    simp only [walkLevels]
    rw [if_neg (not_le.mpr (h next (List.mem_cons_self _ _)))]
    exact ih rb _ _ _ (fun l hl => h l (List.mem_cons_of_mem _ hl))

theorem cumState_snd_le :
    ∀ (ls : List PriceLevel) (prev qq : ℚ),
      List.Chain' (· ≤ ·) (prev :: ls.map PriceLevel.level) →
      (∀ l ∈ ls, 0 ≤ l.price) →
      qq ≤ (cumState (prev, qq) ls).2 := by
  intro ls
  induction ls with
  | nil =>
    intro prev qq _ _
    simp [cumState]
  | cons l ls1 ih =>
    intro prev qq hchain hp
    simp only [List.map_cons] at hchain
    rw [cumState_cons]
    have h1 : prev ≤ l.level := (List.chain'_cons.mp hchain).1
    have h2 : qq ≤ qq + (l.level - prev) * l.price :=
      le_add_of_nonneg_right (mul_nonneg (by linarith) (hp l (List.mem_cons_self _ _)))
    exact h2.trans (ih l.level _ (List.chain'_cons.mp hchain).2
      (fun x hx => hp x (List.mem_cons_of_mem _ hx)))

theorem walkLevels_quote_overflow :
    ∀ (ls : List PriceLevel) (rq qb qq prev : ℚ),
      List.Chain' (· ≤ ·) (prev :: ls.map PriceLevel.level) →
      (∀ l ∈ ls, 0 ≤ l.price) →
      (cumState (prev, qq) ls).2 < rq →
      walkLevels none (some rq) qb qq prev ls = none := by
  intro ls
  induction ls with
  | nil => intros; rfl
  | cons next rest ih =>
    intro rq qb qq prev hchain hp hover
    simp only [List.map_cons] at hchain
    rw [cumState_cons] at hover
    simp only [walkLevels]
    have hrest : (∀ l ∈ rest, 0 ≤ l.price) := fun x hx => hp x (List.mem_cons_of_mem _ hx)
    have hnlq : qq + (next.level - prev) * next.price ≤
        (cumState (next.level, qq + (next.level - prev) * next.price) rest).2 :=
      cumState_snd_le rest next.level _ (List.chain'_cons.mp hchain).2 hrest
    rw [if_neg (not_le.mpr (hnlq.trans_lt hover))]
    exact ih rq _ _ _ (List.chain'_cons.mp hchain).2 hrest hover

theorem computeLevelsQuote_base_cons (l0 : PriceLevel) (rest : List PriceLevel) (rb : ℚ)
    (h : ¬ rb < l0.level) :
    computeLevelsQuote (l0 :: rest) (some rb) none =
      walkLevels (some rb) none l0.level (l0.level * l0.price) l0.level rest := by
  have hb : decide (rb < l0.level) = false := decide_eq_false h
  simp [computeLevelsQuote, hb]

theorem computeLevelsQuote_quote_cons (l0 : PriceLevel) (rest : List PriceLevel) (rq : ℚ)
    (h : ¬ rq < l0.level * l0.price) :
    computeLevelsQuote (l0 :: rest) none (some rq) =
      walkLevels none (some rq) l0.level (l0.level * l0.price) l0.level rest := by
  have hb : decide (rq < l0.level * l0.price) = false := decide_eq_false h
  simp [computeLevelsQuote, hb]

/-! ## Claim C1: base-amount interpolation -/

/-- Claim C1: for a base-amount request, `computeLevelsQuote` finds the
first level (at index ≥ 1; the request must be at least the first level's
cumulative size) whose cumulative size is at least the request and
interpolates linearly at that tier's marginal price:
`quote = cumulativeQuoteAtPriorLevel
  + (requestedBase - cumulativeBaseAtPriorLevel) * tierPrice`. -/
theorem C1_base_interpolation (levels : List PriceLevel) (l0 : PriceLevel)
    (pre : List PriceLevel) (tier : PriceLevel) (post : List PriceLevel) (rb : ℚ)
    (hlev : levels = l0 :: pre ++ tier :: post)
    (h0 : l0.level ≤ rb)
    (hpre : ∀ l ∈ pre, l.level < rb)
    (htier : rb ≤ tier.level) :
    computeLevelsQuote levels (some rb) none =
      some ((cumState (l0.level, l0.level * l0.price) pre).2 +
        (rb - (cumState (l0.level, l0.level * l0.price) pre).1) * tier.price) := by
  subst hlev
  exact (computeLevelsQuote_base_cons l0 (pre ++ tier :: post) rb (not_lt.mpr h0)).trans
    (walkLevels_base_formula pre tier post rb (l0.level * l0.price) l0.level hpre htier)

/-- Witness for C1 at the spec's concrete curve: levels
`[(0,2),(10,2),(20,3)]`, requested base `15`, quote `10*2 + 5*3 = 35`. -/
theorem C1_base_interpolation_witness :
    ((0 : ℚ) ≤ 15 ∧
      (∀ l ∈ [({ level := 10, price := 2 } : PriceLevel)], l.level < 15) ∧
      (15 : ℚ) ≤ 20) ∧
    computeLevelsQuote [⟨0, 2⟩, ⟨10, 2⟩, ⟨20, 3⟩] (some 15) none = some 35 := by
  refine ⟨⟨by norm_num, ?_, by norm_num⟩, ?_⟩
  · intro l hl
    rw [List.mem_singleton.mp hl]
    show (10 : ℚ) < 15
    norm_num
  · have h := C1_base_interpolation [⟨0, 2⟩, ⟨10, 2⟩, ⟨20, 3⟩] ⟨0, 2⟩ [⟨10, 2⟩] ⟨20, 3⟩ [] 15
      rfl (by show (0 : ℚ) ≤ 15; norm_num)
      (by
        intro l hl
        rw [List.mem_singleton.mp hl]
        show (10 : ℚ) < 15
        norm_num)
      (by show (15 : ℚ) ≤ 20; norm_num)
    rw [h]
    norm_num [cumState, List.foldl_cons, List.foldl_nil]

/-! ## Claim C4: unfillable requests -/

/-- Claim C4: `computeLevelsQuote` returns `undefined` whenever both request
parameters are supplied, whenever the levels list is empty, and — for a
levels list sorted by cumulative size (with nonnegative prices in the
quote-request case) — whenever the requested amount exceeds the deepest
level's cumulative size. -/
theorem C4_unfillable (levels : List PriceLevel) (x y rb rq : ℚ) (ob oq : Option ℚ) :
    computeLevelsQuote levels (some x) (some y) = none ∧
    computeLevelsQuote [] ob oq = none ∧
    (List.Chain' (· ≤ ·) (levels.map PriceLevel.level) → deepestLevel levels < rb →
      computeLevelsQuote levels (some rb) none = none) ∧
    (List.Chain' (· ≤ ·) (levels.map PriceLevel.level) → (∀ l ∈ levels, 0 ≤ l.price) →
      deepestQuote levels < rq →
      computeLevelsQuote levels none (some rq) = none) := by
  refine ⟨by simp [computeLevelsQuote], ?_, ?_, ?_⟩
  · cases ob <;> cases oq <;> simp [computeLevelsQuote]
  · intro hchain hover
    cases levels with
    | nil => simp [computeLevelsQuote]
    | cons l0 rest =>
      by_cases h0 : rb < l0.level
      · simp [computeLevelsQuote, h0]
      · rw [computeLevelsQuote_base_cons l0 rest rb h0]
        apply walkLevels_base_overflow
        intro l hl
        have hle : l.level ≤ ((l0 :: rest).map PriceLevel.level).getLastD 0 :=
          chain_le_getLastD _ 0 hchain _
            (List.mem_map_of_mem PriceLevel.level (List.mem_cons_of_mem _ hl))
        unfold deepestLevel at hover
        linarith
  · intro hchain hp hover
    cases levels with
    | nil => simp [computeLevelsQuote]
    | cons l0 rest =>
      by_cases h0 : rq < l0.level * l0.price
      · simp [computeLevelsQuote, h0]
      · rw [computeLevelsQuote_quote_cons l0 rest rq h0]
        apply walkLevels_quote_overflow
        · simpa using hchain
        · exact fun l hl => hp l (List.mem_cons_of_mem _ hl)
        · exact hover

/-- Witness for C4 on a concrete two-tier curve. -/
theorem C4_unfillable_witness :
    computeLevelsQuote [⟨0, 2⟩, ⟨10, 2⟩] (some 1) (some 1) = none ∧
    computeLevelsQuote [] (some 1) none = none ∧
    computeLevelsQuote [⟨0, 2⟩, ⟨10, 2⟩] (some 100) none = none ∧
    computeLevelsQuote [⟨0, 2⟩, ⟨10, 2⟩] none (some 100) = none := by
  have h := C4_unfillable [⟨0, 2⟩, ⟨10, 2⟩] 1 1 100 100 (some 1) none
  refine ⟨h.1, h.2.1, h.2.2.1 ?hc ?hd, h.2.2.2 ?hc ?hp ?hq⟩
  case hc => norm_num [List.chain'_cons]
  case hd =>
    show deepestLevel [⟨0, 2⟩, ⟨10, 2⟩] < 100
    norm_num [deepestLevel, List.getLastD]
  case hp =>
    intro l hl
    rcases List.mem_cons.mp hl with rfl | hl1
    · show (0 : ℚ) ≤ 2
      norm_num
    · rw [List.mem_singleton.mp hl1]
      show (0 : ℚ) ≤ 2
      norm_num
  case hq =>
    show deepestQuote [⟨0, 2⟩, ⟨10, 2⟩] < 100
    norm_num [deepestQuote, cumState, List.foldl_cons, List.foldl_nil]

/-! ## Monotonicity of the curve walk (for claim C3) -/

theorem walkLevels_base_lb :
    ∀ (ls : List PriceLevel) (rb qq prev o : ℚ),
      List.Chain' (· ≤ ·) (prev :: ls.map PriceLevel.level) →
      (∀ l ∈ ls, 0 ≤ l.price) →
      prev ≤ rb →
      walkLevels (some rb) none prev qq prev ls = some o →
      qq ≤ o := by
  intro ls
  induction ls with
  | nil =>
    intro rb qq prev o _ _ _ h
    simp [walkLevels] at h
  | cons next rest ih =>
    intro rb qq prev o hchain hp hprev h
    simp only [List.map_cons] at hchain
    simp only [walkLevels] at h
    by_cases hc : rb ≤ next.level
    · rw [if_pos hc] at h
      have hval := Option.some.inj h
      have hmul : 0 ≤ (rb - prev) * next.price :=
        mul_nonneg (by linarith) (hp next (List.mem_cons_self _ _))
      linarith [hval.symm.le, hval.le]
    · rw [if_neg hc] at h
      have h1 : prev ≤ next.level := (List.chain'_cons.mp hchain).1
      have h2 : qq ≤ qq + (next.level - prev) * next.price :=
        le_add_of_nonneg_right (mul_nonneg (by linarith) (hp next (List.mem_cons_self _ _)))
      exact h2.trans (ih rb _ next.level o (List.chain'_cons.mp hchain).2
        (fun l hl => hp l (List.mem_cons_of_mem _ hl)) (le_of_lt (not_le.mp hc)) h)

theorem walkLevels_base_mono :
    ∀ (ls : List PriceLevel) (rb1 rb2 qq prev o1 o2 : ℚ),
      List.Chain' (· ≤ ·) (prev :: ls.map PriceLevel.level) →
      (∀ l ∈ ls, 0 ≤ l.price) →
      prev ≤ rb1 → rb1 ≤ rb2 →
      walkLevels (some rb1) none prev qq prev ls = some o1 →
      walkLevels (some rb2) none prev qq prev ls = some o2 →
      o1 ≤ o2 := by
  intro ls
  induction ls with
  | nil =>
    intro rb1 rb2 qq prev o1 o2 _ _ _ _ h1 _
    simp [walkLevels] at h1
  | cons next rest ih =>
    intro rb1 rb2 qq prev o1 o2 hchain hp hprev h12 h1 h2
    simp only [List.map_cons] at hchain
    have hpnext : 0 ≤ next.price := hp next (List.mem_cons_self _ _)
    have hrest : ∀ l ∈ rest, 0 ≤ l.price := fun l hl => hp l (List.mem_cons_of_mem _ hl)
    simp only [walkLevels] at h1 h2
    by_cases hc1 : rb1 ≤ next.level
    · rw [if_pos hc1] at h1
      have e1 := Option.some.inj h1
      by_cases hc2 : rb2 ≤ next.level
      · rw [if_pos hc2] at h2
        have e2 := Option.some.inj h2
        have hmul : (rb1 - prev) * next.price ≤ (rb2 - prev) * next.price :=
          mul_le_mul_of_nonneg_right (by linarith) hpnext
        linarith [e1.le, e1.symm.le, e2.le, e2.symm.le]
      · rw [if_neg hc2] at h2
        have hlb : qq + (next.level - prev) * next.price ≤ o2 :=
          walkLevels_base_lb rest rb2 _ next.level o2 (List.chain'_cons.mp hchain).2
            hrest (le_of_lt (not_le.mp hc2)) h2
        have hup : (rb1 - prev) * next.price ≤ (next.level - prev) * next.price :=
          mul_le_mul_of_nonneg_right (by linarith) hpnext
        linarith [e1.le, e1.symm.le]
    · have hc2 : ¬ rb2 ≤ next.level := fun hcon => hc1 (h12.trans hcon)
      rw [if_neg hc1] at h1
      rw [if_neg hc2] at h2
      exact ih rb1 rb2 _ next.level o1 o2 (List.chain'_cons.mp hchain).2 hrest
        (le_of_lt (not_le.mp hc1)) h12 h1 h2

theorem walkLevels_quote_lb :
    ∀ (ls : List PriceLevel) (rq qq prev o : ℚ),
      List.Chain' (· ≤ ·) (prev :: ls.map PriceLevel.level) →
      (∀ l ∈ ls, 0 < l.price) →
      qq ≤ rq →
      walkLevels none (some rq) prev qq prev ls = some o →
      prev ≤ o := by
  intro ls
  induction ls with
  | nil =>
    intro rq qq prev o _ _ _ h
    simp [walkLevels] at h
  | cons next rest ih =>
    intro rq qq prev o hchain hp hqq h
    simp only [List.map_cons] at hchain
    have hpnext : 0 < next.price := hp next (List.mem_cons_self _ _)
    simp only [walkLevels] at h
    by_cases hc : rq ≤ qq + (next.level - prev) * next.price
    · rw [if_pos hc] at h
      have hval := Option.some.inj h
      have hdiv : 0 ≤ (rq - qq) / next.price := div_nonneg (by linarith) hpnext.le
      linarith [hval.le, hval.symm.le]
    · rw [if_neg hc] at h
      have h1 : prev ≤ next.level := (List.chain'_cons.mp hchain).1
      exact h1.trans (ih rq _ next.level o (List.chain'_cons.mp hchain).2
        (fun l hl => hp l (List.mem_cons_of_mem _ hl)) (le_of_lt (not_le.mp hc)) h)

theorem walkLevels_quote_mono :
    ∀ (ls : List PriceLevel) (rq1 rq2 qq prev o1 o2 : ℚ),
      List.Chain' (· ≤ ·) (prev :: ls.map PriceLevel.level) →
      (∀ l ∈ ls, 0 < l.price) →
      qq ≤ rq1 → rq1 ≤ rq2 →
      walkLevels none (some rq1) prev qq prev ls = some o1 →
      walkLevels none (some rq2) prev qq prev ls = some o2 →
      o1 ≤ o2 := by
  intro ls
  induction ls with
  | nil =>
    intro rq1 rq2 qq prev o1 o2 _ _ _ _ h1 _
    simp [walkLevels] at h1
  | cons next rest ih =>
    intro rq1 rq2 qq prev o1 o2 hchain hp hqq h12 h1 h2
    simp only [List.map_cons] at hchain
    have hpnext : 0 < next.price := hp next (List.mem_cons_self _ _)
    have hrest : ∀ l ∈ rest, 0 < l.price := fun l hl => hp l (List.mem_cons_of_mem _ hl)
    have hprevnext : prev ≤ next.level := (List.chain'_cons.mp hchain).1
    simp only [walkLevels] at h1 h2
    by_cases hc1 : rq1 ≤ qq + (next.level - prev) * next.price
    · rw [if_pos hc1] at h1
      have e1 := Option.some.inj h1
      by_cases hc2 : rq2 ≤ qq + (next.level - prev) * next.price
      · rw [if_pos hc2] at h2
        have e2 := Option.some.inj h2
        have hdiv : (rq1 - qq) / next.price ≤ (rq2 - qq) / next.price :=
          div_le_div_of_nonneg_right (by linarith) hpnext.le
        linarith [e1.le, e1.symm.le, e2.le, e2.symm.le]
      · rw [if_neg hc2] at h2
        have hlb : next.level ≤ o2 :=
          walkLevels_quote_lb rest rq2 _ next.level o2 (List.chain'_cons.mp hchain).2
            hrest (le_of_lt (not_le.mp hc2)) h2
        have hdiv : (rq1 - qq) / next.price ≤
            (qq + (next.level - prev) * next.price - qq) / next.price :=
          div_le_div_of_nonneg_right (by linarith) hpnext.le
        have hcancel : (qq + (next.level - prev) * next.price - qq) / next.price =
            next.level - prev := by
          rw [show qq + (next.level - prev) * next.price - qq =
            (next.level - prev) * next.price by ring]
          exact mul_div_cancel_right₀ _ (ne_of_gt hpnext)
        rw [hcancel] at hdiv
        linarith [e1.le, e1.symm.le]
    · have hc2 : ¬ rq2 ≤ qq + (next.level - prev) * next.price :=
        fun hcon => hc1 (h12.trans hcon)
      rw [if_neg hc1] at h1
      rw [if_neg hc2] at h2
      exact ih rq1 rq2 _ next.level o1 o2 (List.chain'_cons.mp hchain).2 hrest
        (le_of_lt (not_le.mp hc1)) h12 h1 h2

theorem computeLevelsQuote_base_mono (levels : List PriceLevel) (rb1 rb2 o1 o2 : ℚ)
    (hchain : List.Chain' (· ≤ ·) (levels.map PriceLevel.level))
    (hp : ∀ l ∈ levels, 0 ≤ l.price)
    (h12 : rb1 ≤ rb2)
    (h1 : computeLevelsQuote levels (some rb1) none = some o1)
    (h2 : computeLevelsQuote levels (some rb2) none = some o2) :
    o1 ≤ o2 := by
  cases levels with
  | nil => simp [computeLevelsQuote] at h1
  | cons l0 rest =>
    by_cases h0 : rb1 < l0.level
    · simp [computeLevelsQuote, h0] at h1
    · have h0b : ¬ rb2 < l0.level := fun hcon => h0 (lt_of_le_of_lt h12 hcon)
      rw [computeLevelsQuote_base_cons l0 rest rb1 h0] at h1
      rw [computeLevelsQuote_base_cons l0 rest rb2 h0b] at h2
      simp only [List.map_cons] at hchain
      exact walkLevels_base_mono rest rb1 rb2 _ l0.level o1 o2 hchain
        (fun l hl => hp l (List.mem_cons_of_mem _ hl)) (not_lt.mp h0) h12 h1 h2

theorem computeLevelsQuote_quote_mono (levels : List PriceLevel) (rq1 rq2 o1 o2 : ℚ)
    (hchain : List.Chain' (· ≤ ·) (levels.map PriceLevel.level))
    (hp : ∀ l ∈ levels, 0 < l.price)
    (h12 : rq1 ≤ rq2)
    (h1 : computeLevelsQuote levels none (some rq1) = some o1)
    (h2 : computeLevelsQuote levels none (some rq2) = some o2) :
    o1 ≤ o2 := by
  cases levels with
  | nil => simp [computeLevelsQuote] at h1
  | cons l0 rest =>
    by_cases h0 : rq1 < l0.level * l0.price
    · simp [computeLevelsQuote, h0] at h1
    · have h0b : ¬ rq2 < l0.level * l0.price := fun hcon => h0 (lt_of_le_of_lt h12 hcon)
      rw [computeLevelsQuote_quote_cons l0 rest rq1 h0] at h1
      rw [computeLevelsQuote_quote_cons l0 rest rq2 h0b] at h2
      simp only [List.map_cons] at hchain
      exact walkLevels_quote_mono rest rq1 rq2 _ l0.level o1 o2 hchain
        (fun l hl => hp l (List.mem_cons_of_mem _ hl)) (not_lt.mp h0) h12 h1 h2

theorem curveQuote_mono (levels : List PriceLevel) (side : SwapSide) (a1 a2 o1 o2 : ℚ)
    (hchain : List.Chain' (· ≤ ·) (levels.map PriceLevel.level))
    (hp : ∀ l ∈ levels, 0 < l.price)
    (h12 : a1 ≤ a2)
    (h1 : curveQuote levels side a1 = some o1)
    (h2 : curveQuote levels side a2 = some o2) :
    o1 ≤ o2 := by
  cases side with
  | SELL =>
    simp only [curveQuote] at h1 h2
    exact computeLevelsQuote_base_mono levels a1 a2 o1 o2 hchain
      (fun l hl => (hp l hl).le) h12 h1 h2
  | BUY =>
    simp only [curveQuote] at h1 h2
    exact computeLevelsQuote_quote_mono levels a1 a2 o1 o2 hchain hp h12 h1 h2

/-! ## The output loop of computePricesFromLevels (claim C3) -/

theorem computeOutputsLoop_cons_none (levels : List PriceLevel) (side : SwapSide)
    (a : ℚ) (rest : List ℚ) (ha : a ≠ 0) (hq : curveQuote levels side a = none) :
    computeOutputsLoop levels side (a :: rest) = (0 :: rest.map fun _ => 0, 1) := by
  simp [computeOutputsLoop, ha, hq]

theorem computeOutputsLoop_cons_some (levels : List PriceLevel) (side : SwapSide)
    (a o : ℚ) (rest : List ℚ) (ha : a ≠ 0) (hq : curveQuote levels side a = some o) :
    computeOutputsLoop levels side (a :: rest) =
      (o :: (computeOutputsLoop levels side rest).1,
        (computeOutputsLoop levels side rest).2 + 1) := by
  simp [computeOutputsLoop, ha, hq]

theorem computeOutputsLoop_spec (levels : List PriceLevel) (side : SwapSide) :
    ∀ (amounts : List ℚ), (∀ a ∈ amounts, 0 < a) →
      ∃ k, k ≤ amounts.length ∧
        (computeOutputsLoop levels side amounts).1.length = amounts.length ∧
        List.Forall₂ (fun a o => curveQuote levels side a = some o)
          (amounts.take k) ((computeOutputsLoop levels side amounts).1.take k) ∧
        (∀ z ∈ (computeOutputsLoop levels side amounts).1.drop k, z = 0) ∧
        (∀ h : k < amounts.length, curveQuote levels side (amounts.get ⟨k, h⟩) = none) ∧
        (computeOutputsLoop levels side amounts).2 =
          (if k = amounts.length then k else k + 1) := by
  intro amounts
  induction amounts with
  | nil =>
    intro _
    refine ⟨0, le_refl _, rfl, List.Forall₂.nil, ?_, ?_, rfl⟩
    · intro z hz
      cases hz
    · intro h
      simp at h
  | cons a rest ih =>
    intro hpos
    have ha : a ≠ 0 := ne_of_gt (hpos a (List.mem_cons_self _ _))
    obtain ⟨k, hk, hlen, hfa, hdrop, hnone, hcount⟩ :=
      ih (fun x hx => hpos x (List.mem_cons_of_mem _ hx))
    cases hq : curveQuote levels side a with
    | none =>
      have hloop := computeOutputsLoop_cons_none levels side a rest ha hq
      refine ⟨0, Nat.zero_le _, ?_, List.Forall₂.nil, ?_, ?_, ?_⟩
      · rw [hloop]
        simp
      · rw [hloop]
        intro z hz
        rcases List.mem_cons.mp hz with rfl | hz1
        · rfl
        · exact (List.mem_map.mp hz1).choose_spec.2.symm
      · intro _
        exact hq
      · rw [hloop, if_neg (by simp)]
    | some o =>
      have hloop := computeOutputsLoop_cons_some levels side a o rest ha hq
      refine ⟨k + 1, by simpa using hk, ?_, ?_, ?_, ?_, ?_⟩
      · rw [hloop]
        simpa using hlen
      · rw [hloop]
        simp only [List.take_succ_cons]
        exact List.Forall₂.cons hq hfa
      · rw [hloop]
        simpa using hdrop
      · intro h
        exact hnone (by simpa using h)
      · rw [hloop]
        dsimp only
        rw [hcount]
        by_cases hk2 : k = rest.length
        · rw [if_pos hk2, if_pos (by simp [hk2])]
        · rw [if_neg hk2, if_neg (by simp [hk2])]

theorem chain_of_forall₂_mono (levels : List PriceLevel) (side : SwapSide)
    (hchain : List.Chain' (· ≤ ·) (levels.map PriceLevel.level))
    (hp : ∀ l ∈ levels, 0 < l.price) :
    ∀ (as1 os : List ℚ),
      List.Forall₂ (fun a o => curveQuote levels side a = some o) as1 os →
      List.Chain' (· ≤ ·) as1 →
      List.Chain' (· ≤ ·) os := by
  intro as1 os hf
  induction hf with
  | nil =>
    intro _
    exact List.chain'_nil
  | cons hR hF ih =>
    intro hc
    rename_i a o as2 os2
    cases hF with
    | nil => exact List.chain'_singleton o
    | cons hR2 hF2 =>
      rename_i a2 o2 as3 os3
      refine List.chain'_cons.mpr ⟨?_, ?_⟩
      · exact curveQuote_mono levels side a a2 o o2 hchain hp
          (List.chain'_cons.mp hc).1 hR hR2
      · exact ih (List.chain'_cons.mp hc).2

theorem bnToFixed0_mono {x y : ℚ} (h : x ≤ y) : bnToFixed0 x ≤ bnToFixed0 y := by
  unfold bnToFixed0
  by_cases hx : x < 0
  · by_cases hy : y < 0
    · rw [if_pos hx, if_pos hy]
      have hfl : ⌊-y + 1 / 2⌋ ≤ ⌊-x + 1 / 2⌋ := Int.floor_le_floor (by linarith)
      omega
    · rw [if_pos hx, if_neg hy]
      have h1 : (0 : ℤ) ≤ ⌊-x + 1 / 2⌋ := Int.le_floor.mpr (by push_cast; linarith)
      have h2 : (0 : ℤ) ≤ ⌊y + 1 / 2⌋ :=
        Int.le_floor.mpr (by push_cast; linarith [not_lt.mp hy])
      omega
  · have hy : ¬ y < 0 := fun hcon => hx (lt_of_le_of_lt h hcon)
    rw [if_neg hx, if_neg hy]
    exact Int.floor_le_floor (by linarith)

theorem bnToFixed0_zero : bnToFixed0 0 = 0 := by
  norm_num [bnToFixed0]

/-! ## Claim C3: monotone prefix of computePricesFromLevels -/

/-- Claim C3 counterexample: the output sequence of
`computePricesFromLevels` is NOT monotonically non-decreasing for every
non-decreasing positive amount sequence: when a later amount is unfillable
the loop `break`s and its output keeps the prefilled zero, which drops below
the earlier fillable outputs.  For amounts `[1, 100]` on the curve
`[(0,2),(10,2)]` the outputs are `[2, 0]`. -/
theorem C3_monotonicity_counterexample :
    List.Chain' (· ≤ ·) [(1 : ℚ), 100] ∧
    (∀ a ∈ [(1 : ℚ), 100], 0 < a) ∧
    (computePricesFromLevels [1, 100] [⟨0, 2⟩, ⟨10, 2⟩] ⟨[], 0⟩ ⟨[], 0⟩ SwapSide.SELL).2 =
      [2, 0] ∧
    ¬ List.Chain' (· ≤ ·)
      (computePricesFromLevels [1, 100] [⟨0, 2⟩, ⟨10, 2⟩] ⟨[], 0⟩ ⟨[], 0⟩ SwapSide.SELL).2 := by
  have hout : (computePricesFromLevels [1, 100] [⟨0, 2⟩, ⟨10, 2⟩] ⟨[], 0⟩ ⟨[], 0⟩
      SwapSide.SELL).2 = [2, 0] := by
    norm_num [computePricesFromLevels, insertZeroLevelIfNeeded, computeOutputsLoop,
      curveQuote, computeLevelsQuote, walkLevels, bnToFixed0, getBigNumberPow]
  refine ⟨by norm_num [List.chain'_cons], ?_, hout, ?_⟩
  · intro a ha
    rcases List.mem_cons.mp ha with rfl | ha1
    · norm_num
    · rw [List.mem_singleton.mp ha1]
      norm_num
  · rw [hout]
    norm_num [List.chain'_cons]

/-- Claim C3 (amended): for a non-decreasing sequence of positive amounts on
a well-formed curve (levels sorted by cumulative size, nonnegative sizes,
positive prices) there is a cut `k` such that the first `k` outputs are the
curve values and are monotonically non-decreasing, every later output is the
zero (unfillable) marker, the amount at the cut (when the cut is proper) is
unfillable, and the curve is evaluated exactly `k` times plus once for the
first unfillable amount — never for the amounts after it. -/
theorem C3_monotone_prefix (amounts : List ℚ) (levels : List PriceLevel)
    (srcToken destToken : Token) (side : SwapSide)
    (hA : List.Chain' (· ≤ ·) amounts)
    (hApos : ∀ a ∈ amounts, 0 < a)
    (hsorted : List.Chain' (· ≤ ·) (levels.map PriceLevel.level))
    (hnn : ∀ l ∈ levels, 0 ≤ l.level)
    (hp : ∀ l ∈ levels, 0 < l.price) :
    ∃ k, k ≤ amounts.length ∧
      (computePricesFromLevels amounts levels srcToken destToken side).2.length =
        amounts.length ∧
      List.Chain' (· ≤ ·)
        ((computePricesFromLevels amounts levels srcToken destToken side).2.take k) ∧
      (∀ z ∈ (computePricesFromLevels amounts levels srcToken destToken side).2.drop k,
        z = 0) ∧
      (∀ h : k < amounts.length,
        curveQuote (insertZeroLevelIfNeeded levels) side (amounts.get ⟨k, h⟩) = none) ∧
      computePricesEvalCount amounts levels side = (if k = amounts.length then k else k + 1) := by
  have hins_sorted :
      List.Chain' (· ≤ ·) ((insertZeroLevelIfNeeded levels).map PriceLevel.level) := by
    cases levels with
    | nil => exact List.chain'_nil
    | cons l0 rest =>
      by_cases h0 : 0 < l0.level
      · rw [insertZeroLevelIfNeeded_cons_pos l0 rest h0]
        simp only [List.map_cons]
        exact List.chain'_cons.mpr ⟨hnn l0 (List.mem_cons_self _ _), by simpa using hsorted⟩
      · rw [insertZeroLevelIfNeeded_cons_nonpos l0 rest h0]
        exact hsorted
  have hins_p : ∀ l ∈ insertZeroLevelIfNeeded levels, 0 < l.price := by
    cases levels with
    | nil => intro l hl; cases hl
    | cons l0 rest =>
      by_cases h0 : 0 < l0.level
      · rw [insertZeroLevelIfNeeded_cons_pos l0 rest h0]
        intro l hl
        rcases List.mem_cons.mp hl with rfl | hl1
        · exact hp l0 (List.mem_cons_self _ _)
        · exact hp l hl1
      · rw [insertZeroLevelIfNeeded_cons_nonpos l0 rest h0]
        exact hp
  obtain ⟨k, hk, hlen, hfa, hdrop, hnone, hcount⟩ :=
    computeOutputsLoop_spec (insertZeroLevelIfNeeded levels) side amounts hApos
  obtain ⟨dec, hdec⟩ : ∃ d, (match side with
      | SwapSide.SELL => destToken.decimals
      | SwapSide.BUY => srcToken.decimals) = d := ⟨_, rfl⟩
  have hout : (computePricesFromLevels amounts levels srcToken destToken side).2 =
      ((computeOutputsLoop (insertZeroLevelIfNeeded levels) side amounts).1).map
        (fun o => bnToFixed0 (o * getBigNumberPow dec)) := by
    rw [← hdec]
    rfl
  have hpow : (0 : ℚ) ≤ getBigNumberPow dec := by
    unfold getBigNumberPow
    positivity
  refine ⟨k, hk, ?_, ?_, ?_, hnone, hcount⟩
  · rw [hout]
    simpa using hlen
  · rw [hout, ← List.map_take]
    rw [List.chain'_map]
    have hqchain : List.Chain' (· ≤ ·)
        ((computeOutputsLoop (insertZeroLevelIfNeeded levels) side amounts).1.take k) :=
      chain_of_forall₂_mono _ side hins_sorted hins_p _ _ hfa (hA.take k)
    exact hqchain.imp fun a b hab =>
      bnToFixed0_mono (mul_le_mul_of_nonneg_right hab hpow)
  · rw [hout, ← List.map_drop]
    intro z hz
    obtain ⟨z0, hz0, rfl⟩ := List.mem_map.mp hz
    rw [hdrop z0 hz0, zero_mul, bnToFixed0_zero]

/-- Witness for C3 on the amounts `[1, 5]` and the curve `[(0,2),(10,2)]`. -/
theorem C3_monotone_prefix_witness :
    List.Chain' (· ≤ ·) [(1 : ℚ), 5] ∧
    (∀ a ∈ [(1 : ℚ), 5], 0 < a) ∧
    List.Chain' (· ≤ ·) (([⟨0, 2⟩, ⟨10, 2⟩] : List PriceLevel).map PriceLevel.level) ∧
    (∀ l ∈ ([⟨0, 2⟩, ⟨10, 2⟩] : List PriceLevel), 0 ≤ l.level) ∧
    (∀ l ∈ ([⟨0, 2⟩, ⟨10, 2⟩] : List PriceLevel), 0 < l.price) ∧
    (∃ k, k ≤ ([(1 : ℚ), 5]).length ∧
      (computePricesFromLevels [1, 5] [⟨0, 2⟩, ⟨10, 2⟩] ⟨[], 0⟩ ⟨[], 0⟩ SwapSide.SELL).2.length =
        ([(1 : ℚ), 5]).length ∧
      List.Chain' (· ≤ ·)
        ((computePricesFromLevels [1, 5] [⟨0, 2⟩, ⟨10, 2⟩] ⟨[], 0⟩ ⟨[], 0⟩
          SwapSide.SELL).2.take k) ∧
      (∀ z ∈ (computePricesFromLevels [1, 5] [⟨0, 2⟩, ⟨10, 2⟩] ⟨[], 0⟩ ⟨[], 0⟩
          SwapSide.SELL).2.drop k, z = 0) ∧
      (∀ h : k < ([(1 : ℚ), 5]).length,
        curveQuote (insertZeroLevelIfNeeded [⟨0, 2⟩, ⟨10, 2⟩]) SwapSide.SELL
          (([(1 : ℚ), 5]).get ⟨k, h⟩) = none) ∧
      computePricesEvalCount [1, 5] [⟨0, 2⟩, ⟨10, 2⟩] SwapSide.SELL =
        (if k = ([(1 : ℚ), 5]).length then k else k + 1)) := by
  have h1 : List.Chain' (· ≤ ·) [(1 : ℚ), 5] := by norm_num [List.chain'_cons]
  have h2 : ∀ a ∈ [(1 : ℚ), 5], 0 < a := by
    intro a ha
    rcases List.mem_cons.mp ha with rfl | ha1
    · norm_num
    · rw [List.mem_singleton.mp ha1]
      norm_num
  have h3 : List.Chain' (· ≤ ·) (([⟨0, 2⟩, ⟨10, 2⟩] : List PriceLevel).map PriceLevel.level) := by
    norm_num [List.chain'_cons]
  have h4 : ∀ l ∈ ([⟨0, 2⟩, ⟨10, 2⟩] : List PriceLevel), 0 ≤ l.level := by
    intro l hl
    rcases List.mem_cons.mp hl with rfl | hl1
    · show (0 : ℚ) ≤ 0
      norm_num
    · rw [List.mem_singleton.mp hl1]
      show (0 : ℚ) ≤ 10
      norm_num
  have h5 : ∀ l ∈ ([⟨0, 2⟩, ⟨10, 2⟩] : List PriceLevel), 0 < l.price := by
    intro l hl
    rcases List.mem_cons.mp hl with rfl | hl1
    · show (0 : ℚ) < 2
      norm_num
    · rw [List.mem_singleton.mp hl1]
      show (0 : ℚ) < 2
      norm_num
  exact ⟨h1, h2, h3, h4, h5,
    C3_monotone_prefix [1, 5] [⟨0, 2⟩, ⟨10, 2⟩] ⟨[], 0⟩ ⟨[], 0⟩ SwapSide.SELL h1 h2 h3 h4 h5⟩

end HashflowVerify
